import Mathlib

/-!
Shallow embedding of `scripts/run_flaky_quarantine.py` (the flaky-test
quarantine stabilization engine) and proofs about it.

Modelling conventions:
* Python strings are modelled as `List Char` (`Str`), operated on code point by
  code point, exactly as Python's `str` operations do.
* Python floats are idealized as `ℚ`; `round(x, 4)` is modelled by `round4`
  (round half to even on the 4th decimal, Python's rounding rule, ignoring
  binary-representation error of floats).
* The Python `re` module is an external library; a compiled regex is modelled
  as an oracle `RegexOracle : Str → Option (Str → Bool)` mapping a pattern
  source to `none` when `re.compile` raises `re.error`, and to
  `some search` otherwise, where `search t` tells whether `rx.search(t)`
  finds a match.  Plain substring containment (`pat in t`) is modelled
  concretely.
* Subprocess execution (`ctest` attempts) is an oracle
  `outcomes : Str → Nat → Bool`: `outcomes t i = true` iff attempt `i` of
  test `t` exits with a non-zero status.
* File contents are passed in as values; writing a file is modelled by the
  corresponding field of the engine's result.
-/

attribute [local semireducible] Rat.add Rat.mul Rat.inv Rat.sub

namespace Flaky

abbrev Str := List Char

/-- Whitespace test used by `str.strip` (modelled by `Char.isWhitespace`). -/
def isSpaceC (c : Char) : Bool := c.isWhitespace

/-- Python `line.strip()`: remove leading and trailing whitespace. -/
def strip (s : Str) : Str :=
  ((s.dropWhile isSpaceC).reverse.dropWhile isSpaceC).reverse

/-- Character class `[A-Za-z0-9_\-]` of the filename regex on line 45. -/
def isBaseChar (c : Char) : Bool := c.isAlphanum || c = '_' || c = '-'

/-- Helper for `filenameBase`: the candidate base must be non-empty and
consist of `[A-Za-z0-9_\-]` characters only. -/
def checkBase (b : Str) : Option Str :=
  if !b.isEmpty && b.all isBaseChar then some b else none

/-- `re.match(r'([A-Za-z0-9_\-]+)\.(cpp|cc|cxx)$', line)` (line 45): if the
whole line is a base token followed by one of the three extensions, return
the base token.  The extension is recognized on the reversed line; the
three extension cases are mutually exclusive, so the test order is
irrelevant (it mirrors the regex alternation order). -/
def filenameBase (line : Str) : Option Str :=
  if line.reverse.take 4 = ['p', 'p', 'c', '.'] then checkBase (line.reverse.drop 4).reverse
  else if line.reverse.take 3 = ['c', 'c', '.'] then checkBase (line.reverse.drop 3).reverse
  else if line.reverse.take 4 = ['x', 'x', 'c', '.'] then checkBase (line.reverse.drop 4).reverse
  else none

/-- Lines 41-50: strip the line; skip blank lines and `#` comments; for a
filename-shaped line keep only the extension-stripped base token, otherwise
keep the stripped line itself. -/
def parseLine (raw : Str) : Option Str :=
  if (strip raw).isEmpty then none
  else if (strip raw).head? = some '#' then none
  else
    match filenameBase (strip raw) with
    | some b => some b
    | none => some (strip raw)

/-- The `patterns` list built by lines 40-50 (one entry per usable line,
duplicates preserved, in file order). -/
def parsePatterns (lines : List Str) : List Str :=
  lines.filterMap parseLine

/-- Python `pat in t`: substring containment (`pat` is a prefix of some
suffix of `t`; the empty pattern is contained in everything). -/
def containsSub (pat : Str) : Str → Bool
  | [] => pat.isEmpty
  | c :: cs => pat.isPrefixOf (c :: cs) || containsSub pat cs

/-- Python `pat.endswith('.cpp')`. -/
def cppSuffix (pat : Str) : Bool :=
  match pat.reverse with
  | 'p' :: 'p' :: 'c' :: '.' :: _ => true
  | _ => false

/-- Python string `<` : lexicographic comparison of code points. -/
def lexLt : Str → Str → Bool
  | [], [] => false
  | [], _ :: _ => true
  | _ :: _, [] => false
  | a :: as, b :: bs => if a < b then true else if b < a then false else lexLt as bs

/-- Insert into a strictly `lexLt`-sorted list, skipping duplicates. -/
def sortedInsert (x : Str) : List Str → List Str
  | [] => [x]
  | y :: ys =>
    if lexLt x y then x :: y :: ys
    else if x = y then y :: ys
    else y :: sortedInsert x ys

/-- Python `sorted(set(l))`: deduplicated, lexicographically sorted. -/
def sortDedup (l : List Str) : List Str := List.foldr sortedInsert [] l

theorem lexLt_asymm_total : ∀ a b : Str, lexLt a b = false → a ≠ b → lexLt b a = true := by
  intro a
  induction a with
  | nil =>
    intro b h hne
    cases b with
    | nil => exact absurd rfl hne
    | cons c cs => simp [lexLt] at h
  | cons x xs ih =>
    intro b h hne
    cases b with
    | nil => simp [lexLt]
    | cons y ys =>
      simp only [lexLt] at h ⊢
      rcases lt_trichotomy x y with hxy | hxy | hxy
      · simp [hxy] at h
      · subst hxy
        simp only [lt_irrefl, if_false] at h ⊢
        exact ih ys h (fun he => hne (by rw [he]))
      · simp [hxy, not_lt_of_lt hxy]

theorem lexLt_trans : ∀ a b c : Str, lexLt a b = true → lexLt b c = true → lexLt a c = true := by
  intro a
  induction a with
  | nil =>
    intro b c hab hbc
    cases c with
    | nil =>
      cases b with
      | nil => simp [lexLt] at hab
      | cons y ys => simp [lexLt] at hbc
    | cons z zs => simp [lexLt]
  | cons x xs ih =>
    intro b c hab hbc
    cases b with
    | nil => simp [lexLt] at hab
    | cons y ys =>
      cases c with
      | nil => simp [lexLt] at hbc
      | cons z zs =>
        simp only [lexLt] at hab hbc ⊢
        rcases lt_trichotomy x y with hxy | hxy | hxy
        · rcases lt_trichotomy y z with hyz | hyz | hyz
          · simp [lt_trans hxy hyz]
          · subst hyz; simp [hxy]
          · simp [hyz, not_lt_of_lt hyz] at hbc
        · subst hxy
          rcases lt_trichotomy x z with hyz | hyz | hyz
          · simp [hyz]
          · subst hyz
            simp only [lt_irrefl, if_false] at hab hbc ⊢
            exact ih ys zs hab hbc
          · simp [hyz, not_lt_of_lt hyz] at hbc
        · simp [hxy, not_lt_of_lt hxy] at hab

/-- The strict order used to state sortedness of the resolved run set. -/
def RLt (a b : Str) : Prop := lexLt a b = true

theorem mem_sortedInsert (x a : Str) : ∀ l : List Str,
    (a ∈ sortedInsert x l ↔ a = x ∨ a ∈ l) := by
  intro l
  induction l with
  | nil => simp [sortedInsert]
  | cons y ys ih =>
    simp only [sortedInsert]
    by_cases h1 : lexLt x y
    · rw [if_pos h1]; simp
    · rw [if_neg h1]
      by_cases h2 : x = y
      · subst h2
        rw [if_pos rfl]
        simp only [List.mem_cons]
        tauto
      · rw [if_neg h2]
        simp only [List.mem_cons, ih]
        tauto

theorem pairwise_sortedInsert (x : Str) : ∀ l : List Str,
    l.Pairwise RLt → (sortedInsert x l).Pairwise RLt := by
  intro l
  induction l with
  | nil => intro _; simp [sortedInsert, List.pairwise_singleton]
  | cons y ys ih =>
    intro hp
    rcases List.pairwise_cons.mp hp with ⟨hy, hys⟩
    simp only [sortedInsert]
    by_cases h1 : lexLt x y
    · simp only [if_pos h1]
      refine List.pairwise_cons.mpr ⟨?_, hp⟩
      intro b hb
      rcases List.mem_cons.mp hb with hb | hb
      · rw [hb]; exact h1
      · exact lexLt_trans x y b h1 (hy b hb)
    · simp only [h1, if_false]
      by_cases h2 : x = y
      · simpa [h2] using hp
      · simp only [h2, if_false]
        refine List.pairwise_cons.mpr ⟨?_, ih hys⟩
        intro b hb
        rcases (mem_sortedInsert x b ys).mp hb with hb | hb
        · rw [hb]
          exact lexLt_asymm_total x y (Bool.eq_false_iff.mpr h1) h2
        · exact hy b hb

theorem mem_sortDedup (a : Str) : ∀ l : List Str, (a ∈ sortDedup l ↔ a ∈ l) := by
  intro l
  induction l with
  | nil => simp [sortDedup]
  | cons x xs ih =>
    simp only [sortDedup, List.foldr_cons]
    rw [show List.foldr sortedInsert [] xs = sortDedup xs from rfl] at *
    rw [mem_sortedInsert, ih]
    simp

theorem pairwise_sortDedup : ∀ l : List Str, (sortDedup l).Pairwise RLt := by
  intro l
  induction l with
  | nil => simp [sortDedup]
  | cons x xs ih =>
    simpa [sortDedup] using pairwise_sortedInsert x _ ih

/-! ### Pattern resolution (lines 79-92) -/

/-- Model of the Python `re` module: `none` when `re.compile(pat)` raises
`re.error`; otherwise `some search` where `search t` tells whether
`rx.search(t)` finds a match in `t`. -/
abbrev RegexOracle := Str → Option (Str → Bool)

/-- Lines 80-91, the per-pattern matching rule of the resolver: regex search
when the pattern compiles and at least one test matches, otherwise plain
substring containment against every discovered test name. -/
def resolveMatches (O : RegexOracle) (dl : List Str) (pat : Str) : List Str :=
  match O pat with
  | some search =>
    if (dl.filter search).isEmpty then dl.filter (containsSub pat) else dl.filter search
  | none => dl.filter (containsSub pat)

/-- Lines 79-92: the resolved run set `selected` — the union over all
patterns of the per-pattern matches, deduplicated and sorted
(`selected = sorted(selected_set)`); resolution walks `sorted(discovered)`. -/
def selectedOf (O : RegexOracle) (discovered : List Str) (patterns : List Str) : List Str :=
  sortDedup (patterns.flatMap (resolveMatches O (sortDedup discovered)))

/-! ### Repeated execution and per-test stats (lines 101-119) -/

/-- The integer `round(x * 10^4)` with ties broken to even (Python's
rounding rule). -/
def round4Int (q : ℚ) : Int :=
  if q * 10000 - Rat.floor (q * 10000) < 1/2 then Rat.floor (q * 10000)
  else if 1/2 < q * 10000 - Rat.floor (q * 10000) then Rat.floor (q * 10000) + 1
  else if Rat.floor (q * 10000) % 2 = 0 then Rat.floor (q * 10000)
  else Rat.floor (q * 10000) + 1

/-- Python `round(x, 4)` idealized over `ℚ`: round `x * 10^4` half to even,
then divide back. -/
def round4 (q : ℚ) : ℚ := (round4Int q : ℚ) / 10000

/-- The per-test record stored in `per_test[name]` (lines 113-118): the
`command` field is irrelevant to every claim and omitted. -/
structure TestStat where
  attempts : Nat
  failures : Nat
  instability : ℚ
deriving DecidableEq

/-- Lines 102-118: run `repeatN` sequential attempts of one test;
`fail i = true` iff attempt `i` exits non-zero; record
`attempts`, `failures` and `round(failures/attempts, 4)`
(`0.0` when `attempts` is `0`). -/
def runTest (repeatN : Nat) (fail : Nat → Bool) : TestStat :=
  let attempts := repeatN
  let failures := (List.range repeatN).countP fail
  let instability : ℚ := if attempts = 0 then 0 else (failures : ℚ) / (attempts : ℚ)
  ⟨attempts, failures, round4 instability⟩

/-! ### Per-pattern state machine (lines 120-159) -/

/-- One entry of the persisted state mapping (per pattern). -/
structure PatRec where
  clean_streak : Nat
  instability_history : List ℚ
deriving DecidableEq

/-- The persisted state: a string-keyed mapping in insertion order
(Python `dict`). -/
abbrev StateMap := List (Str × PatRec)

/-- Entry of `pattern_status[pat]` (line 157). -/
structure PatStatus where
  clean_streak : Nat
  avg_recent_instability : ℚ
deriving DecidableEq

/-- Python `d.get(k)` on an insertion-ordered mapping. -/
def alGet {β : Type} : List (Str × β) → Str → Option β
  | [], _ => none
  | (k', v') :: rest, k => if k' = k then some v' else alGet rest k

/-- Python `d[k] = v`: replace in place if the key exists, else append. -/
def alSet {β : Type} : List (Str × β) → Str → β → List (Str × β)
  | [], k, v => [(k, v)]
  | (k', v') :: rest, k, v =>
    if k' = k then (k, v) :: rest else (k', v') :: alSet rest k v

/-- Lines 131-136, the scorer's related-test rule: regex search over the
resolved set when the pattern compiles; on `re.error`, substring containment
— with a trailing `.cpp` stripped from the pattern first. -/
def scorerRelated (O : RegexOracle) (selected : List Str) (pat : Str) : List Str :=
  match O pat with
  | some search => selected.filter search
  | none =>
    selected.filter (fun t =>
      if cppSuffix pat then containsSub (pat.take (pat.length - 4)) t
      else containsSub pat t)

/-- Line 139: `all_clean = all(per_test[t]['failures']==0 for t in related)`. -/
def allClean (stats : Str → TestStat) (related : List Str) : Bool :=
  related.all fun t => (stats t).failures == 0

/-- Line 140: unweighted mean of the related tests' recorded instability. -/
def avgInstab (stats : Str → TestStat) (related : List Str) : ℚ :=
  (related.map fun t => (stats t).instability).sum / (related.length : ℚ)

/-- Lines 142-145: `clean_streak + 1` on an all-clean invocation, else `0`. -/
def updatedStreak (r : PatRec) (clean : Bool) : Nat :=
  if clean then r.clean_streak + 1 else 0

/-- Line 148: the history with this invocation's rounded average appended. -/
def appendedHist (r : PatRec) (avg : ℚ) : List ℚ :=
  r.instability_history ++ [round4 avg]

/-- The last `k` entries of a list (Python `l[-k:]` for `k > 0`). -/
def lastN (k : Nat) (l : List ℚ) : List ℚ := l.drop (l.length - k)

/-- Lines 150-151: truncate the history to its last `max(history_windows, 10)`
entries when longer than that. -/
def truncHist (hw : Nat) (h : List ℚ) : List ℚ :=
  let cap := max hw 10
  if cap < h.length then lastN cap h else h

/-- Line 155: `hist[-history_windows:] if history_windows > 0 else hist`. -/
def windowOf (hw : Nat) (h : List ℚ) : List ℚ :=
  if 0 < hw then lastN hw h else h

/-- Line 156: `sum(w)/len(w) if w else 0.0`. -/
def meanOf (l : List ℚ) : ℚ :=
  if l.isEmpty then 0 else l.sum / (l.length : ℚ)

/-- Recognized options of the engine (§6 of the spec); integer options are
modelled as `Nat` (they are non-negative in every documented configuration),
the float threshold as `ℚ`. -/
structure Args where
  repeatN : Nat
  clean_threshold : Nat
  history_windows : Nat
  demote_threshold : ℚ
deriving DecidableEq

/-- Accumulator of the per-pattern loop: the state mapping, the
`removed` list and the `pattern_status` mapping. -/
structure LoopState where
  state : StateMap
  removed : List Str
  status : List (Str × PatStatus)
deriving DecidableEq

/-- Line 141: `state.get(pat, {'clean_streak':0, 'instability_history': []})`. -/
def rec0Of (ls : LoopState) (pat : Str) : PatRec :=
  (alGet ls.state pat).getD ⟨0, []⟩

/-- Lines 142-152: the updated record stored back into the state —
updated streak, appended-then-truncated history. -/
def newRecOf (args : Args) (O : RegexOracle) (selected : List Str)
    (stats : Str → TestStat) (ls : LoopState) (pat : Str) : PatRec :=
  let related := scorerRelated O selected pat
  ⟨updatedStreak (rec0Of ls pat) (allClean stats related),
   truncHist args.history_windows (appendedHist (rec0Of ls pat) (avgInstab stats related))⟩

/-- Lines 155-156: `avg_recent` over the windowed (truncated) history. -/
def avgRecentOf (args : Args) (O : RegexOracle) (selected : List Str)
    (stats : Str → TestStat) (ls : LoopState) (pat : Str) : ℚ :=
  meanOf (windowOf args.history_windows
    (newRecOf args O selected stats ls pat).instability_history)

/-- Lines 131-159, the body of `for pat in patterns:` — one state-machine
transition for one pattern occurrence.  A pattern with no related tests is
skipped entirely (line 137-138). -/
def stepPattern (args : Args) (O : RegexOracle) (selected : List Str)
    (stats : Str → TestStat) (ls : LoopState) (pat : Str) : LoopState :=
  if scorerRelated O selected pat = [] then ls
  else
    { state := alSet ls.state pat (newRecOf args O selected stats ls pat)
      removed :=
        if args.clean_threshold ≤ (newRecOf args O selected stats ls pat).clean_streak ∧
            avgRecentOf args O selected stats ls pat < args.demote_threshold
        then ls.removed ++ [pat] else ls.removed
      status := alSet ls.status pat
        ⟨(newRecOf args O selected stats ls pat).clean_streak,
         round4 (avgRecentOf args O selected stats ls pat)⟩ }

/-- The whole `for pat in patterns:` loop, started from loaded state,
empty `removed` and empty `pattern_status`. -/
def runLoop (args : Args) (O : RegexOracle) (selected : List Str)
    (stats : Str → TestStat) (st0 : StateMap) (patterns : List Str) : LoopState :=
  patterns.foldl (stepPattern args O selected stats) ⟨st0, [], []⟩

/-! ### Whole-invocation engine (the `main` function) -/

/-- The per-test stats of this invocation: each selected test is run
`args.repeatN` times (lines 101-119). -/
def statsOf (args : Args) (outcomes : Str → Nat → Bool) : Str → TestStat :=
  fun t => runTest args.repeatN (outcomes t)

/-- Lines 123-127: parse the state file; on any parse failure fall back to
an empty mapping (`state = {}`). `parsed = none` models a file that exists
but fails to parse as JSON (and also a missing file — both yield `{}`). -/
def loadState (parsed : Option StateMap) : StateMap := parsed.getD []

/-- Line 162: keep the lines of the flaky file that are non-blank after
stripping and whose stripped content is not a removed pattern. -/
def rewriteFlaky (lines : List Str) (removed : List Str) : List Str :=
  lines.filter fun l => !(strip l).isEmpty && !(removed.contains (strip l))

/-- The 8-glyph ramp of line 184. -/
def sparkBlocks : List Char := ['▁', '▂', '▃', '▄', '▅', '▆', '▇', '█']

/-- Lines 181-192: per-pattern sparkline glyphs, normalized by the pattern's
own min/max (an epsilon span when min = max); `int(x + 0.5)` on the
non-negative scaled value is `⌊x + 1/2⌋`. -/
def spark (values : List ℚ) : List Char :=
  match values with
  | [] => []
  | v0 :: vs =>
    let lo := vs.foldl min v0
    let hi := vs.foldl max v0
    let span : ℚ := if hi = lo then 1 / 1000000000 else hi - lo
    (v0 :: vs).map fun v =>
      sparkBlocks.getD (Int.toNat (Rat.floor ((v - lo) / span * 7 + 1/2))) ' '

/-- Lines 193-197: one sparkline artifact line per state entry, in mapping
order — modelled structurally as (pattern, glyphs, raw history values);
the textual rendering of the numbers is abstracted away. -/
def sparkTriples (st : StateMap) : List (Str × List Char × List ℚ) :=
  st.map fun e => (e.1, spark e.2.instability_history, e.2.instability_history)

/-- Everything a non-skipped invocation writes (report fields relevant to the
claims, the rewritten flaky file when there are removals, the state file and
the sparkline artifact). -/
structure RunOutcome where
  patterns : List Str
  selected : List Str
  perTest : List (Str × TestStat)
  removed : List Str
  status : List (Str × PatStatus)
  finalState : StateMap
  rewrittenFlaky : Option (List Str)
  sparks : List (Str × List Char × List ℚ)
deriving DecidableEq

/-- Result of one invocation of `main`: an early "skipped" report
(lines 36-39, 51-54, 93-96) or a full run. -/
inductive RunResult where
  | skipped (reason : Str)
  | ran (o : RunOutcome)
deriving DecidableEq

/-- The `main` function (lines 33-220) as one invocation:
`flakyFile = none` models a missing flaky file; `discovered` is the test
inventory parsed from the CTest files; `outcomes` the subprocess oracle;
`parsed` the parse of the state file (`none` on parse failure or absence). -/
def runEngine (args : Args) (O : RegexOracle) (flakyFile : Option (List Str))
    (discovered : List Str) (outcomes : Str → Nat → Bool)
    (parsed : Option StateMap) : RunResult :=
  match flakyFile with
  | none => .skipped ("no file".toList)
  | some lines =>
    let patterns := parsePatterns lines
    if patterns = [] then .skipped ("empty patterns".toList)
    else
      let selected := selectedOf O discovered patterns
      if selected = [] then .skipped ("no test names resolved".toList)
      else
        let stats := statsOf args outcomes
        let loop := runLoop args O selected stats (loadState parsed) patterns
        .ran
          { patterns := patterns
            selected := selected
            perTest := selected.map fun t => (t, stats t)
            removed := loop.removed
            status := loop.status
            finalState := loop.state
            rewrittenFlaky :=
              if loop.removed = [] then none else some (rewriteFlaky lines loop.removed)
            sparks := sparkTriples loop.state }

/-- Projection: the rewritten flaky file of a run (`none` when skipped or
when nothing was removed). -/
def engineRewrite : RunResult → Option (List Str)
  | .ran o => o.rewrittenFlaky
  | .skipped _ => none

/-- Projection: the removed-patterns list of a full run. -/
def engineRemoved : RunResult → Option (List Str)
  | .ran o => some o.removed
  | .skipped _ => none

/-- Projection: the state mapping written at the end of a full run. -/
def engineFinalState : RunResult → Option StateMap
  | .ran o => some o.finalState
  | .skipped _ => none

/-- Projection: the resolved run set of a full run. -/
def engineSelected : RunResult → Option (List Str)
  | .ran o => some o.selected
  | .skipped _ => none

/-! ### Lemmas about the mapping operations -/

theorem alGet_alSet_self {β : Type} (m : List (Str × β)) (k : Str) (v : β) :
    alGet (alSet m k v) k = some v := by
  induction m with
  | nil => simp [alSet, alGet]
  | cons e rest ih =>
    obtain ⟨k', v'⟩ := e
    by_cases h : k' = k
    · simp [alSet, alGet, h]
    · simp only [alSet, alGet, if_neg h]
      exact ih

theorem alGet_alSet_ne {β : Type} (m : List (Str × β)) (k k' : Str) (v : β)
    (hne : k' ≠ k) : alGet (alSet m k v) k' = alGet m k' := by
  have hkk : k ≠ k' := Ne.symm hne
  induction m with
  | nil => simp [alSet, alGet, hkk]
  | cons e rest ih =>
    obtain ⟨k0, v0⟩ := e
    by_cases h : k0 = k
    · subst h
      simp [alSet, alGet, hkk]
    · simp only [alSet, alGet, if_neg h]
      by_cases h2 : k0 = k'
      · simp [h2]
      · simp only [if_neg h2]
        exact ih

theorem alGet_alSet_isSome {β : Type} (m : List (Str × β)) (k k' : Str) (v : β)
    (h : (alGet m k').isSome) : (alGet (alSet m k v) k').isSome := by
  by_cases he : k' = k
  · subst he; rw [alGet_alSet_self]; rfl
  · rwa [alGet_alSet_ne _ _ _ _ he]

/-! ### Lemmas about the truncation window -/

theorem length_lastN (k : Nat) (l : List ℚ) : (lastN k l).length = l.length - (l.length - k) := by
  simp [lastN]

theorem windowOf_truncHist (hw : Nat) (h : List ℚ) (hhw : 0 < hw) :
    windowOf hw (truncHist hw h) = lastN hw h := by
  unfold windowOf truncHist
  rw [if_pos hhw]
  by_cases hc : max hw 10 < h.length
  · rw [if_pos hc]
    unfold lastN
    rw [List.length_drop, List.drop_drop]
    congr 1
    have h10 : hw ≤ max hw 10 := le_max_left _ _
    omega
  · rw [if_neg hc]

theorem lastN_ne_nil (k : Nat) (l : List ℚ) (hk : 0 < k) (hl : l ≠ []) :
    lastN k l ≠ [] := by
  unfold lastN
  intro hcon
  have := congrArg List.length hcon
  rw [List.length_drop] at this
  simp only [List.length_nil] at this
  have : l.length = 0 := by omega
  exact hl (List.length_eq_zero.mp this)

/-! ### Unfolding lemmas for one state-machine transition -/

theorem stepPattern_skip (args : Args) (O : RegexOracle) (selected : List Str)
    (stats : Str → TestStat) (ls : LoopState) (pat : Str)
    (h : scorerRelated O selected pat = []) :
    stepPattern args O selected stats ls pat = ls := by
  unfold stepPattern
  rw [if_pos h]

theorem stepPattern_state (args : Args) (O : RegexOracle) (selected : List Str)
    (stats : Str → TestStat) (ls : LoopState) (pat : Str)
    (h : scorerRelated O selected pat ≠ []) :
    (stepPattern args O selected stats ls pat).state =
      alSet ls.state pat (newRecOf args O selected stats ls pat) := by
  unfold stepPattern
  rw [if_neg h]

theorem stepPattern_removed (args : Args) (O : RegexOracle) (selected : List Str)
    (stats : Str → TestStat) (ls : LoopState) (pat : Str)
    (h : scorerRelated O selected pat ≠ []) :
    (stepPattern args O selected stats ls pat).removed =
      if args.clean_threshold ≤ (newRecOf args O selected stats ls pat).clean_streak ∧
          avgRecentOf args O selected stats ls pat < args.demote_threshold
      then ls.removed ++ [pat] else ls.removed := by
  unfold stepPattern
  rw [if_neg h]

theorem removed_ne_append (l : List Str) (pat : Str) : l ≠ l ++ [pat] := by
  intro h
  have := congrArg List.length h
  simp at this

/-- When `history_windows > 0`, the `avg_recent` the code compares against
the demotion threshold is exactly the mean of the last `history_windows`
entries of the just-appended (untruncated) history. -/
theorem avgRecentOf_eq (args : Args) (O : RegexOracle) (selected : List Str)
    (stats : Str → TestStat) (ls : LoopState) (pat : Str)
    (hhw : 0 < args.history_windows) :
    avgRecentOf args O selected stats ls pat =
      meanOf (lastN args.history_windows
        (appendedHist (rec0Of ls pat) (avgInstab stats (scorerRelated O selected pat)))) := by
  unfold avgRecentOf newRecOf
  rw [windowOf_truncHist _ _ hhw]

/-! ### Claim C1 -/

/-- Claim C1: with at least one related test and a positive
`history_windows`, a pattern is appended to the removed list if and only if
its updated `clean_streak` is at least `clean_threshold` and the mean of
the last `history_windows` entries of the just-appended instability history
is strictly below `demote_threshold`; the removed list is otherwise
unchanged; in particular an updated streak of `clean_threshold - 1` never
removes, and an updated streak of exactly `clean_threshold` removes
whenever the average condition holds. -/
theorem c1_demotion_iff (args : Args) (O : RegexOracle) (selected : List Str)
    (stats : Str → TestStat) (ls : LoopState) (pat : Str)
    (hhw : 0 < args.history_windows)
    (hrel : scorerRelated O selected pat ≠ []) :
    ((stepPattern args O selected stats ls pat).removed = ls.removed ++ [pat] ↔
      args.clean_threshold ≤ (newRecOf args O selected stats ls pat).clean_streak ∧
        meanOf (lastN args.history_windows
          (appendedHist (rec0Of ls pat) (avgInstab stats (scorerRelated O selected pat)))) <
          args.demote_threshold) ∧
    ((stepPattern args O selected stats ls pat).removed = ls.removed ++ [pat] ∨
      (stepPattern args O selected stats ls pat).removed = ls.removed) ∧
    (0 < args.clean_threshold →
      (newRecOf args O selected stats ls pat).clean_streak = args.clean_threshold - 1 →
      (stepPattern args O selected stats ls pat).removed = ls.removed) ∧
    ((newRecOf args O selected stats ls pat).clean_streak = args.clean_threshold →
      meanOf (lastN args.history_windows
        (appendedHist (rec0Of ls pat) (avgInstab stats (scorerRelated O selected pat)))) <
        args.demote_threshold →
      (stepPattern args O selected stats ls pat).removed = ls.removed ++ [pat]) := by
  have hrm := stepPattern_removed args O selected stats ls pat hrel
  rw [avgRecentOf_eq args O selected stats ls pat hhw] at hrm
  set cond := args.clean_threshold ≤ (newRecOf args O selected stats ls pat).clean_streak ∧
    meanOf (lastN args.history_windows
      (appendedHist (rec0Of ls pat) (avgInstab stats (scorerRelated O selected pat)))) <
      args.demote_threshold with hcond
  by_cases hc : cond
  · rw [if_pos hc] at hrm
    refine ⟨⟨fun _ => hc, fun _ => hrm⟩, Or.inl hrm, ?_, fun _ _ => hrm⟩
    intro hthr hstreak
    exfalso
    have := hc.1
    omega
  · rw [if_neg hc] at hrm
    refine ⟨⟨?_, fun h => absurd h hc⟩, Or.inr hrm, fun _ _ => hrm, ?_⟩
    · intro he
      rw [hrm] at he
      exact absurd he (removed_ne_append ls.removed pat)
    · intro hstreak havg
      exact absurd ⟨le_of_eq hstreak.symm, havg⟩ hc

/-! ### Claim C3 -/

/-- Claim C3: for a pattern with a non-empty related set, the state entry
written back has `clean_streak` equal to the previous value plus one when
every related test had zero failures this invocation, and exactly `0`
otherwise (even a single failure in a single related test resets it). -/
theorem c3_streak_update (args : Args) (O : RegexOracle) (selected : List Str)
    (stats : Str → TestStat) (ls : LoopState) (pat : Str)
    (hrel : scorerRelated O selected pat ≠ []) :
    alGet (stepPattern args O selected stats ls pat).state pat =
      some (newRecOf args O selected stats ls pat) ∧
    ((∀ t ∈ scorerRelated O selected pat, (stats t).failures = 0) →
      (newRecOf args O selected stats ls pat).clean_streak =
        (rec0Of ls pat).clean_streak + 1) ∧
    ((∃ t ∈ scorerRelated O selected pat, (stats t).failures ≠ 0) →
      (newRecOf args O selected stats ls pat).clean_streak = 0) := by
  refine ⟨?_, ?_, ?_⟩
  · rw [stepPattern_state args O selected stats ls pat hrel]
    exact alGet_alSet_self _ _ _
  · intro hall
    have hc : allClean stats (scorerRelated O selected pat) = true := by
      simp only [allClean, List.all_eq_true]
      intro t ht
      simp [hall t ht]
    simp [newRecOf, updatedStreak, hc]
  · rintro ⟨t, ht, hfail⟩
    have hc : allClean stats (scorerRelated O selected pat) = false := by
      simp only [allClean]
      rw [List.all_eq_false]
      exact ⟨t, ht, by simpa using hfail⟩
    simp [newRecOf, updatedStreak, hc]

/-! ### Concrete inputs shared by several witnesses -/

/-- Configuration with `clean_threshold 1`, `history_windows 5`,
`demote_threshold 1/10`, `repeat 1`. -/
def wArgs : Args := ⟨1, 1, 5, 1/10⟩

/-- Oracle under which no pattern compiles as a regex. -/
def wO : RegexOracle := fun _ => none

def wSel : List Str := ["t".toList]

def wStats : Str → TestStat := fun _ => ⟨1, 0, 0⟩

def wLS : LoopState := ⟨[], [], []⟩

def wPat : Str := "t".toList

/-- Witness for C1: at the concrete input the demotion condition holds and
the pattern is indeed appended to the removed list. -/
theorem c1_demotion_iff_witness :
    (stepPattern wArgs wO wSel wStats wLS wPat).removed = wLS.removed ++ [wPat] :=
  ((c1_demotion_iff wArgs wO wSel wStats wLS wPat (by decide) (by decide)).1).mpr (by decide)

/-- Witness for C3: at the concrete all-clean input the streak advances from
0 to 1. -/
theorem c3_streak_update_witness :
    (newRecOf wArgs wO wSel wStats wLS wPat).clean_streak =
      (rec0Of wLS wPat).clean_streak + 1 :=
  (c3_streak_update wArgs wO wSel wStats wLS wPat (by decide)).2.1 (by decide)

/-! ### Claim C4 -/

theorem resolveMatches_subset (O : RegexOracle) (dl : List Str) (p t : Str)
    (h : t ∈ resolveMatches O dl p) : t ∈ dl := by
  unfold resolveMatches at h
  cases hO : O p with
  | none =>
    rw [hO] at h
    exact (List.mem_filter.mp h).1
  | some f =>
    rw [hO] at h
    dsimp only at h
    by_cases he : (dl.filter f).isEmpty
    · rw [if_pos he] at h
      exact (List.mem_filter.mp h).1
    · rw [if_neg he] at h
      exact (List.mem_filter.mp h).1

/-- Claim C4: the resolved run set is strictly lexicographically sorted
(hence duplicate-free), its members are exactly the union over the patterns
of the per-pattern matches, it is a subset of the discovered inventory, and
resolution is deterministic (a pure function of its inputs). -/
theorem c4_resolver_props (O : RegexOracle) (discovered patterns : List Str) :
    (selectedOf O discovered patterns).Pairwise RLt ∧
    (∀ t, t ∈ selectedOf O discovered patterns ↔
      ∃ p, p ∈ patterns ∧ t ∈ resolveMatches O (sortDedup discovered) p) ∧
    (∀ t, t ∈ selectedOf O discovered patterns → t ∈ discovered) ∧
    selectedOf O discovered patterns = selectedOf O discovered patterns := by
  refine ⟨pairwise_sortDedup _, ?_, ?_, rfl⟩
  · intro t
    rw [selectedOf, mem_sortDedup, List.mem_flatMap]
  · intro t ht
    rw [selectedOf, mem_sortDedup, List.mem_flatMap] at ht
    obtain ⟨p, _, hm⟩ := ht
    have hdl := resolveMatches_subset O (sortDedup discovered) p t hm
    exact (mem_sortDedup t discovered).mp hdl

/-- Witness for C4: a concrete membership consequence of the subset
conjunct. -/
theorem c4_resolver_props_witness : "t".toList ∈ wSel :=
  (c4_resolver_props wO wSel ["t".toList]).2.2.1 "t".toList (by decide)

/-! ### Claim C2 -/

/-- Claim C2 (amended): the scorer's related set agrees with the resolver's
matching rule applied to the resolved set whenever the pattern compiles as a
regex and matches at least one member of that set, or the pattern fails to
compile and does not end in `.cpp`. -/
theorem c2_related_agreement (O : RegexOracle) (sel : List Str) (pat : Str)
    (h : (∃ f, O pat = some f ∧ sel.filter f ≠ []) ∨
         (O pat = none ∧ cppSuffix pat = false)) :
    scorerRelated O sel pat = resolveMatches O sel pat := by
  rcases h with ⟨f, hO, hne⟩ | ⟨hO, hcpp⟩
  · unfold scorerRelated resolveMatches
    rw [hO]
    dsimp only
    rw [if_neg (by simpa using hne)]
  · unfold scorerRelated resolveMatches
    rw [hO]
    simp [hcpp]

/-- Witness for the amended C2: a non-compiling pattern without a `.cpp`
suffix, where the two rules agree. -/
theorem c2_related_agreement_witness :
    scorerRelated wO wSel wPat = resolveMatches wO wSel wPat :=
  c2_related_agreement wO wSel wPat (Or.inr ⟨rfl, by decide⟩)

/-- A no-failure execution oracle. -/
def wOut : Str → Nat → Bool := fun _ _ => false

/-- Oracle of the C2 counterexample.  In Python, `re.compile("x$y")`
succeeds, and `re.search` with it can never find a match: after `$`
(end of string, or just before a trailing newline — test names contain no
newline) the regex still requires a literal `y`, which can never follow.
So the compiled pattern is `some (fun _ => false)`. -/
def c2O : RegexOracle :=
  fun p => if p = "x$y".toList then some (fun _ => false) else none

/-- Counterexample to C2 as stated: for the flaky file containing the single
pattern `x$y` and the inventory `{"ax$yb"}`, the resolver's rule (substring
fallback after zero regex matches) resolves the run set to `{"ax$yb"}`, but
the scorer's related set for the very same pattern is empty — the two rules
disagree, and the pattern that contributed the whole run set receives no
state update (the final state mapping is empty). -/
theorem c2_counterexample :
    engineSelected (runEngine wArgs c2O (some ["x$y".toList]) ["ax$yb".toList] wOut none) =
      some ["ax$yb".toList] ∧
    scorerRelated c2O ["ax$yb".toList] "x$y".toList = [] ∧
    resolveMatches c2O ["ax$yb".toList] "x$y".toList = ["ax$yb".toList] ∧
    scorerRelated c2O ["ax$yb".toList] "x$y".toList ≠
      resolveMatches c2O ["ax$yb".toList] "x$y".toList ∧
    engineFinalState (runEngine wArgs c2O (some ["x$y".toList]) ["ax$yb".toList] wOut none) =
      some [] := by decide

/-! ### Claim C5 -/

theorem isBaseChar_not_space (c : Char) (h : isBaseChar c = true) : isSpaceC c = false := by
  cases hs : isSpaceC c
  · rfl
  · exfalso
    have hc : ((c = ' ' ∨ c = '\t') ∨ c = '\r') ∨ c = '\n' := by
      simpa [isSpaceC, Char.isWhitespace] using hs
    rcases hc with ((h1 | h1) | h1) | h1 <;> (subst h1; exact absurd h (by decide))

theorem dropWhile_of_no (q : Char → Bool) (l : Str) (h : ∀ c ∈ l, q c = false) :
    l.dropWhile q = l := by
  cases l with
  | nil => rfl
  | cons c cs => simp [List.dropWhile_cons, h c (List.mem_cons_self c cs)]

theorem strip_of_no_space (s : Str) (h : ∀ c ∈ s, isSpaceC c = false) : strip s = s := by
  unfold strip
  rw [dropWhile_of_no isSpaceC s h]
  rw [dropWhile_of_no isSpaceC s.reverse (fun c hc => h c (List.mem_reverse.mp hc))]
  exact List.reverse_reverse s

theorem parseLine_of_filename (l b : Str) (hstrip : strip l = l) (hne : l ≠ [])
    (hhead : l.head? ≠ some '#') (hfb : filenameBase l = some b) :
    parseLine l = some b := by
  unfold parseLine
  rw [hstrip]
  rw [if_neg (by simpa using hne)]
  rw [if_neg hhead, hfb]

/-- Heads differ, so a `take` of a cons-headed append is not this list. -/
theorem take_cons_ne (x y : Char) (xs ys p : Str) (n : Nat) (hne : x ≠ y) :
    ((x :: xs) ++ ys).take (n + 1) ≠ y :: p := by
  simp [List.cons_append, List.take_succ_cons, hne]

theorem parsePatterns_filename (b ext : Str) (hb : b ≠ [])
    (hbc : b.all isBaseChar = true)
    (hextsp : ∀ c ∈ ext, isSpaceC c = false)
    (hfb : filenameBase (b ++ ext) = some b) :
    parsePatterns [b ++ ext] = [b] := by
  have hbase : ∀ c ∈ b, isBaseChar c = true := List.all_eq_true.mp hbc
  have hspace : ∀ c ∈ b, isSpaceC c = false := fun c hc => isBaseChar_not_space c (hbase c hc)
  have hstrip : strip (b ++ ext) = b ++ ext := by
    apply strip_of_no_space
    intro c hc
    rcases List.mem_append.mp hc with h1 | h1
    · exact hspace c h1
    · exact hextsp c h1
  have hlne : b ++ ext ≠ [] := by
    intro h
    rcases List.append_eq_nil.mp h with ⟨h1, _⟩
    exact hb h1
  have hlhead : (b ++ ext).head? ≠ some '#' := by
    obtain ⟨c0, bs, rfl⟩ := List.exists_cons_of_ne_nil hb
    have hc0 : isBaseChar c0 = true := hbase c0 (List.mem_cons_self _ _)
    simp only [List.cons_append, List.head?_cons]
    intro h
    have hc : c0 = '#' := by injection h
    subst hc
    exact absurd hc0 (by decide)
  unfold parsePatterns
  rw [List.filterMap_cons, parseLine_of_filename _ b hstrip hlne hlhead hfb]
  rfl

/-- Claim C5 (amended): a usable flaky-file line of the shape
`<base>.<cpp|cc|cxx>` contributes exactly one pattern — the
extension-stripped base token; the original line is not kept as a pattern. -/
theorem c5_filename_only_base (b : Str) (hb : b ≠ []) (hbc : b.all isBaseChar = true) :
    parsePatterns [b ++ ".cpp".toList] = [b] ∧
    parsePatterns [b ++ ".cc".toList] = [b] ∧
    parsePatterns [b ++ ".cxx".toList] = [b] := by
  have hcheck : checkBase b = some b := by
    unfold checkBase
    rw [if_pos]
    rw [Bool.and_eq_true, Bool.not_eq_true', hbc]
    refine ⟨?_, rfl⟩
    cases hbe : b.isEmpty
    · rfl
    · exact absurd (List.isEmpty_iff.mp hbe) hb
  refine ⟨parsePatterns_filename b _ hb hbc (by decide) ?_,
          parsePatterns_filename b _ hb hbc (by decide) ?_,
          parsePatterns_filename b _ hb hbc (by decide) ?_⟩
  · unfold filenameBase
    rw [List.reverse_append]
    rw [if_pos (by rw [List.take_left' (by decide)]; decide)]
    rw [List.drop_left' (by decide), List.reverse_reverse]
    exact hcheck
  · unfold filenameBase
    rw [List.reverse_append]
    rw [if_neg (show List.take 4 (".cc".toList.reverse ++ b.reverse) = ['p', 'p', 'c', '.'] → False from
          take_cons_ne 'c' 'p' ['c', '.'] b.reverse ['p', 'c', '.'] 3 (by decide))]
    rw [if_pos (by rw [List.take_left' (by decide)]; decide)]
    rw [List.drop_left' (by decide), List.reverse_reverse]
    exact hcheck
  · unfold filenameBase
    rw [List.reverse_append]
    rw [if_neg (show List.take 4 (".cxx".toList.reverse ++ b.reverse) = ['p', 'p', 'c', '.'] → False from
          take_cons_ne 'x' 'p' ['x', 'c', '.'] b.reverse ['p', 'c', '.'] 3 (by decide))]
    rw [if_neg (show List.take 3 (".cxx".toList.reverse ++ b.reverse) = ['c', 'c', '.'] → False from
          take_cons_ne 'x' 'c' ['x', 'c', '.'] b.reverse ['c', '.'] 2 (by decide))]
    rw [if_pos (by rw [List.take_left' (by decide)]; decide)]
    rw [List.drop_left' (by decide), List.reverse_reverse]
    exact hcheck

/-- Witness for the amended C5: the line `demo_video.cpp` contributes the
single pattern `demo_video`. -/
theorem c5_filename_only_base_witness :
    parsePatterns ["demo_video".toList ++ ".cpp".toList] = ["demo_video".toList] :=
  (c5_filename_only_base "demo_video".toList (by decide) (by decide)).1

/-- Counterexample to C5 as stated: the line `demo_video.cpp` does **not**
contribute the untouched original line as a pattern — only the base token
survives. -/
theorem c5_counterexample :
    parsePatterns ["demo_video.cpp".toList] = ["demo_video".toList] ∧
    "demo_video.cpp".toList ∉ parsePatterns ["demo_video.cpp".toList] := by decide

/-! ### Claim C7 -/

theorem ratFloor_eq (q : ℚ) : (Rat.floor q : Int) = ⌊q⌋ := by
  rw [Rat.floor_def', ← Rat.floor_def]

theorem round4_nonneg (q : ℚ) (h : 0 ≤ q) : 0 ≤ round4 q := by
  unfold round4
  apply div_nonneg _ (by norm_num)
  have hfl : (0 : Int) ≤ Rat.floor (q * 10000) := by
    rw [ratFloor_eq]
    apply Int.le_floor.mpr
    push_cast
    positivity
  unfold round4Int
  split_ifs
  · exact_mod_cast hfl
  · exact_mod_cast (by omega : (0 : Int) ≤ Rat.floor (q * 10000) + 1)
  · exact_mod_cast hfl
  · exact_mod_cast (by omega : (0 : Int) ≤ Rat.floor (q * 10000) + 1)

theorem round4_le_one (q : ℚ) (h : q ≤ 1) : round4 q ≤ 1 := by
  unfold round4
  rw [div_le_one (by norm_num)]
  have hy : q * 10000 ≤ 10000 := by nlinarith
  have hfl : Rat.floor (q * 10000) ≤ 10000 := by
    rw [ratFloor_eq]
    have h2 : (⌊q * 10000⌋ : ℚ) ≤ 10000 := le_trans (Int.floor_le _) hy
    exact_mod_cast h2
  have hstep : ¬(q * 10000 - (Rat.floor (q * 10000) : ℚ) < 1/2) →
      Rat.floor (q * 10000) + 1 ≤ 10000 := by
    intro h1
    have hpos : (0 : ℚ) < q * 10000 - (Rat.floor (q * 10000) : ℚ) :=
      lt_of_lt_of_le (by norm_num) (not_lt.mp h1)
    have hlt : ((Rat.floor (q * 10000) : Int) : ℚ) < 10000 := by
      have := lt_of_sub_pos hpos
      exact lt_of_lt_of_le this hy
    have : Rat.floor (q * 10000) < 10000 := by exact_mod_cast hlt
    omega
  unfold round4Int
  split_ifs with h1 h2 h3
  · exact_mod_cast hfl
  · exact_mod_cast hstep h1
  · exact_mod_cast hfl
  · exact_mod_cast hstep h1

/-- Claim C7 (amended): for every test and `repeat` value, the recorded
stats have `attempts = repeat`, `failures ≤ attempts`, recorded
`instability` equal to `failures / attempts` **rounded to 4 decimal
places** (0 if `attempts` is 0), and `0 ≤ instability ≤ 1`. -/
theorem c7_stat_bounds (repeatN : Nat) (fail : Nat → Bool) :
    (runTest repeatN fail).attempts = repeatN ∧
    (runTest repeatN fail).failures ≤ (runTest repeatN fail).attempts ∧
    (runTest repeatN fail).instability =
      round4 (if repeatN = 0 then 0
              else ((runTest repeatN fail).failures : ℚ) / (repeatN : ℚ)) ∧
    0 ≤ (runTest repeatN fail).instability ∧
    (runTest repeatN fail).instability ≤ 1 := by
  have hcount : (List.range repeatN).countP fail ≤ repeatN := by
    have := List.countP_le_length (p := fail) (l := List.range repeatN)
    simpa using this
  have hv0 : 0 ≤ (if repeatN = 0 then (0 : ℚ)
      else (((List.range repeatN).countP fail : ℚ)) / (repeatN : ℚ)) := by
    split_ifs
    · exact le_refl 0
    · positivity
  have hv1 : (if repeatN = 0 then (0 : ℚ)
      else (((List.range repeatN).countP fail : ℚ)) / (repeatN : ℚ)) ≤ 1 := by
    split_ifs with h0
    · norm_num
    · rw [div_le_one (by exact_mod_cast Nat.pos_of_ne_zero h0)]
      exact_mod_cast hcount
  exact ⟨rfl, hcount, rfl, round4_nonneg _ hv0, round4_le_one _ hv1⟩

/-- Witness for the amended C7 at `repeat = 5` with all attempts passing. -/
theorem c7_stat_bounds_witness : (runTest 5 (fun _ => false)).attempts = 5 :=
  (c7_stat_bounds 5 (fun _ => false)).1

/-- Counterexample to C7 as stated: `repeat = 3` with one failing attempt
records instability `round(1/3, 4) = 0.3333`, which is **not** equal to
`failures / attempts = 1/3`. -/
theorem c7_counterexample :
    (runTest 3 (fun i => i == 0)).attempts = 3 ∧
    (runTest 3 (fun i => i == 0)).failures = 1 ∧
    (runTest 3 (fun i => i == 0)).instability = 3333 / 10000 ∧
    (runTest 3 (fun i => i == 0)).instability ≠
      ((runTest 3 (fun i => i == 0)).failures : ℚ) /
        ((runTest 3 (fun i => i == 0)).attempts : ℚ) := by decide

/-! ### Claim C8 -/

/-- Flaky-file lines of the concrete full run used by several witnesses:
one stable pattern and one blank line. -/
def eLines : List Str := ["stable_test".toList, []]

def eDisc : List Str := ["stable_test_1".toList]

/-- The full outcome of `runEngine wArgs wO (some eLines) eDisc wOut none`
(all attempts pass, the pattern is demoted). -/
def eOutcome : RunOutcome :=
  { patterns := ["stable_test".toList]
    selected := ["stable_test_1".toList]
    perTest := [("stable_test_1".toList, ⟨1, 0, 0⟩)]
    removed := ["stable_test".toList]
    status := [("stable_test".toList, ⟨1, 0⟩)]
    finalState := [("stable_test".toList, ⟨1, [0]⟩)]
    rewrittenFlaky := some []
    sparks := [("stable_test".toList, ['▁'], [0])] }

/-- Claim C8: a state file that fails to parse is treated exactly like an
absent one — the run result is identical to a run from the empty mapping,
every pattern's transition starts from the default record (clean streak 0,
empty history), and on the main path the state written at the end is the
freshly computed loop state from the empty mapping (overwriting the
corrupted file). -/
theorem c8_corrupt_state_fresh (args : Args) (O : RegexOracle)
    (flakyFile : Option (List Str)) (discovered : List Str)
    (outcomes : Str → Nat → Bool) :
    runEngine args O flakyFile discovered outcomes none =
      runEngine args O flakyFile discovered outcomes (some []) ∧
    loadState none = ([] : StateMap) ∧
    (∀ pat, rec0Of ⟨loadState none, [], []⟩ pat = ⟨0, []⟩) ∧
    (∀ o, runEngine args O flakyFile discovered outcomes none = .ran o →
      o.finalState =
        (runLoop args O o.selected (statsOf args outcomes) [] o.patterns).state) := by
  refine ⟨rfl, rfl, fun pat => rfl, ?_⟩
  intro o h
  unfold runEngine at h
  cases flakyFile with
  | none => exact RunResult.noConfusion h
  | some lines =>
    dsimp only at h
    by_cases h1 : parsePatterns lines = []
    · rw [if_pos h1] at h
      exact RunResult.noConfusion h
    · rw [if_neg h1] at h
      by_cases h2 : selectedOf O discovered (parsePatterns lines) = []
      · rw [if_pos h2] at h
        exact RunResult.noConfusion h
      · rw [if_neg h2] at h
        injection h with h3
        subst h3
        rfl

/-- Witness for C8 at the concrete full run. -/
theorem c8_corrupt_state_fresh_witness :
    eOutcome.finalState =
      (runLoop wArgs wO eOutcome.selected (statsOf wArgs wOut) [] eOutcome.patterns).state :=
  (c8_corrupt_state_fresh wArgs wO (some eLines) eDisc wOut).2.2.2 eOutcome (by decide)

/-! ### Claim C9 -/

theorem stepPattern_lookup_self (args : Args) (O : RegexOracle) (selected : List Str)
    (stats : Str → TestStat) (ls : LoopState) (pat : Str)
    (hrel : scorerRelated O selected pat ≠ []) :
    alGet (stepPattern args O selected stats ls pat).state pat =
      some (newRecOf args O selected stats ls pat) := by
  rw [stepPattern_state _ _ _ _ _ _ hrel]
  exact alGet_alSet_self _ _ _

theorem foldl_replicate_clean (args : Args) (O : RegexOracle) (selected : List Str)
    (stats : Str → TestStat) (pat : Str)
    (hrel : scorerRelated O selected pat ≠ [])
    (hclean : allClean stats (scorerRelated O selected pat) = true) :
    ∀ (k : Nat) (ls : LoopState), 1 ≤ k →
      ∃ h' : List ℚ,
        alGet (List.foldl (stepPattern args O selected stats) ls
            (List.replicate k pat)).state pat =
          some ⟨(rec0Of ls pat).clean_streak + k, h'⟩ ∧
        ((rec0Of ls pat).instability_history.length + k ≤ max args.history_windows 10 →
          h' = (rec0Of ls pat).instability_history ++
            List.replicate k (round4 (avgInstab stats (scorerRelated O selected pat)))) := by
  intro k
  induction k with
  | zero => intro ls h; omega
  | succ k ih =>
    intro ls _
    rw [List.replicate_succ, List.foldl_cons]
    have hrec1 : alGet (stepPattern args O selected stats ls pat).state pat =
        some (newRecOf args O selected stats ls pat) :=
      stepPattern_lookup_self args O selected stats ls pat hrel
    have hrec0of : rec0Of (stepPattern args O selected stats ls pat) pat =
        newRecOf args O selected stats ls pat := by
      unfold rec0Of
      rw [hrec1]
      rfl
    have hstreak : (newRecOf args O selected stats ls pat).clean_streak =
        (rec0Of ls pat).clean_streak + 1 := by
      simp [newRecOf, updatedStreak, hclean]
    cases k with
    | zero =>
      refine ⟨(newRecOf args O selected stats ls pat).instability_history, ?_, ?_⟩
      · rw [List.replicate_zero, List.foldl_nil, hrec1]
        congr 1
        rw [← hstreak]
      · intro hlen
        have hnotrunc : ¬(max args.history_windows 10 <
            (appendedHist (rec0Of ls pat) (avgInstab stats (scorerRelated O selected pat))).length) := by
          unfold appendedHist
          rw [List.length_append]
          simp only [List.length_singleton]
          omega
        simp only [newRecOf, truncHist]
        rw [if_neg hnotrunc]
        rfl
    | succ m =>
      obtain ⟨h', hget, hcond⟩ :=
        ih (stepPattern args O selected stats ls pat) (by omega)
      rw [hrec0of] at hget hcond
      rw [hstreak] at hget
      refine ⟨h', ?_, ?_⟩
      · rw [hget]
        congr 2
        omega
      · intro hlen
        have hhist1 : (newRecOf args O selected stats ls pat).instability_history =
            (rec0Of ls pat).instability_history ++
              [round4 (avgInstab stats (scorerRelated O selected pat))] := by
          simp only [newRecOf, truncHist]
          rw [if_neg ?_]
          · rfl
          · unfold appendedHist
            rw [List.length_append]
            simp only [List.length_singleton]
            omega
        have hc := hcond (by
          rw [hhist1, List.length_append]
          simp only [List.length_singleton]
          omega)
        rw [hc, hhist1, List.append_assoc]
        simp [List.replicate_succ]

/-- Claim C9: a pattern string occurring on `k ≥ 1` usable lines gets the
transition applied `k` times in one invocation: under all-clean results its
streak advances by `k`, its history receives `k` appended copies of the
rounded average (when no truncation occurs), and a duplicated pattern can
appear twice in the removed list. -/
theorem c9_duplicate_patterns (args : Args) (O : RegexOracle) (selected : List Str)
    (stats : Str → TestStat) (st0 : StateMap) (pat : Str) (k : Nat)
    (hk : 1 ≤ k)
    (hrel : scorerRelated O selected pat ≠ [])
    (hclean : allClean stats (scorerRelated O selected pat) = true) :
    (∃ h', alGet (runLoop args O selected stats st0 (List.replicate k pat)).state pat =
        some ⟨((alGet st0 pat).getD ⟨0, []⟩).clean_streak + k, h'⟩ ∧
      (((alGet st0 pat).getD ⟨0, []⟩).instability_history.length + k ≤
          max args.history_windows 10 →
        h' = ((alGet st0 pat).getD ⟨0, []⟩).instability_history ++
          List.replicate k (round4 (avgInstab stats (scorerRelated O selected pat))))) ∧
    (runLoop wArgs wO wSel wStats [] [wPat, wPat]).removed = [wPat, wPat] := by
  constructor
  · have h := foldl_replicate_clean args O selected stats pat hrel hclean k ⟨st0, [], []⟩ hk
    simpa [runLoop, rec0Of] using h
  · decide

/-- Witness for C9: two occurrences of the same pattern advance the streak
from 0 to 2 in a single invocation. -/
theorem c9_duplicate_patterns_witness :
    ∃ h', alGet (runLoop wArgs wO wSel wStats [] (List.replicate 2 wPat)).state wPat =
        some ⟨((alGet ([] : StateMap) wPat).getD ⟨0, []⟩).clean_streak + 2, h'⟩ ∧
      (((alGet ([] : StateMap) wPat).getD ⟨0, []⟩).instability_history.length + 2 ≤
          max wArgs.history_windows 10 →
        h' = ((alGet ([] : StateMap) wPat).getD ⟨0, []⟩).instability_history ++
          List.replicate 2 (round4 (avgInstab wStats (scorerRelated wO wSel wPat)))) :=
  (c9_duplicate_patterns wArgs wO wSel wStats [] wPat 2 (by decide) (by decide)
    (by decide)).1

/-! ### Claim C10 -/

theorem loop_preserves (args : Args) (O : RegexOracle) (selected : List Str)
    (stats : Str → TestStat) :
    ∀ (pats : List Str) (ls : LoopState),
      (∀ p ∈ ls.removed, (alGet ls.state p).isSome) →
      ((∀ k, (alGet ls.state k).isSome →
        (alGet (List.foldl (stepPattern args O selected stats) ls pats).state k).isSome) ∧
       (∀ k, k ∉ pats →
        alGet (List.foldl (stepPattern args O selected stats) ls pats).state k =
          alGet ls.state k) ∧
       (∀ p ∈ (List.foldl (stepPattern args O selected stats) ls pats).removed,
        (alGet (List.foldl (stepPattern args O selected stats) ls pats).state p).isSome)) := by
  intro pats
  induction pats with
  | nil => exact fun ls hinv => ⟨fun k h => h, fun k _ => rfl, hinv⟩
  | cons p ps ih =>
    intro ls hinv
    rw [List.foldl_cons]
    have hstep_some : ∀ k, (alGet ls.state k).isSome →
        (alGet (stepPattern args O selected stats ls p).state k).isSome := by
      intro k hk
      by_cases hrel : scorerRelated O selected p = []
      · rw [stepPattern_skip _ _ _ _ _ _ hrel]
        exact hk
      · rw [stepPattern_state _ _ _ _ _ _ hrel]
        exact alGet_alSet_isSome _ _ _ _ hk
    have hstep_other : ∀ k, k ≠ p →
        alGet (stepPattern args O selected stats ls p).state k = alGet ls.state k := by
      intro k hk
      by_cases hrel : scorerRelated O selected p = []
      · rw [stepPattern_skip _ _ _ _ _ _ hrel]
      · rw [stepPattern_state _ _ _ _ _ _ hrel]
        exact alGet_alSet_ne _ _ _ _ hk
    have hstep_inv : ∀ q ∈ (stepPattern args O selected stats ls p).removed,
        (alGet (stepPattern args O selected stats ls p).state q).isSome := by
      intro q hq
      by_cases hrel : scorerRelated O selected p = []
      · rw [stepPattern_skip _ _ _ _ _ _ hrel] at hq ⊢
        exact hinv q hq
      · rw [stepPattern_removed _ _ _ _ _ _ hrel] at hq
        rw [stepPattern_state _ _ _ _ _ _ hrel]
        split_ifs at hq with hc
        · rcases List.mem_append.mp hq with hq1 | hq1
          · exact alGet_alSet_isSome _ _ _ _ (hinv q hq1)
          · have hqp : q = p := by simpa using hq1
            subst hqp
            rw [alGet_alSet_self]
            rfl
        · exact alGet_alSet_isSome _ _ _ _ (hinv q hq)
    obtain ⟨ih1, ih2, ih3⟩ := ih (stepPattern args O selected stats ls p) hstep_inv
    refine ⟨fun k hk => ih1 k (hstep_some k hk), ?_, ih3⟩
    intro k hk
    have hkp : k ≠ p := fun h => hk (h ▸ List.mem_cons_self p ps)
    have hkps : k ∉ ps := fun h => hk (List.mem_cons_of_mem p h)
    rw [ih2 k hkps, hstep_other k hkp]

/-- Claim C10: the per-pattern loop never deletes a state entry — every key
present before is present after; entries of patterns absent from the
current flaky file are carried over unchanged; every removed pattern still
has a (just-updated) state entry; and the sparkline artifact has exactly
one line per state entry, including entries of absent or removed patterns. -/
theorem c10_state_frame (args : Args) (O : RegexOracle) (selected : List Str)
    (stats : Str → TestStat) (st0 : StateMap) (patterns : List Str) :
    (∀ k, (alGet st0 k).isSome →
      (alGet (runLoop args O selected stats st0 patterns).state k).isSome) ∧
    (∀ k, k ∉ patterns →
      alGet (runLoop args O selected stats st0 patterns).state k = alGet st0 k) ∧
    (∀ p ∈ (runLoop args O selected stats st0 patterns).removed,
      (alGet (runLoop args O selected stats st0 patterns).state p).isSome) ∧
    (sparkTriples (runLoop args O selected stats st0 patterns).state).length =
      (runLoop args O selected stats st0 patterns).state.length ∧
    (∀ e ∈ (runLoop args O selected stats st0 patterns).state,
      (e.1, spark e.2.instability_history, e.2.instability_history) ∈
        sparkTriples (runLoop args O selected stats st0 patterns).state) := by
  obtain ⟨h1, h2, h3⟩ :=
    loop_preserves args O selected stats patterns ⟨st0, [], []⟩ (by simp)
  refine ⟨h1, h2, h3, by simp [sparkTriples], ?_⟩
  intro e he
  exact List.mem_map_of_mem _ he

/-! ### Claim C6 -/

theorem checkBase_some (r b : Str) (h : checkBase r = some b) :
    b = r ∧ b ≠ [] ∧ b.all isBaseChar = true := by
  unfold checkBase at h
  split_ifs at h with hcond
  · injection h with h1
    subst h1
    rw [Bool.and_eq_true] at hcond
    obtain ⟨h2, h3⟩ := hcond
    refine ⟨rfl, ?_, h3⟩
    intro hb
    rw [hb] at h2
    exact absurd h2 (by decide)

theorem filenameBase_some (line b : Str) (h : filenameBase line = some b) :
    b ≠ [] ∧ b.all isBaseChar = true := by
  unfold filenameBase at h
  split_ifs at h
  · rcases checkBase_some _ _ h with ⟨_, h2, h3⟩
    exact ⟨h2, h3⟩
  · rcases checkBase_some _ _ h with ⟨_, h2, h3⟩
    exact ⟨h2, h3⟩
  · rcases checkBase_some _ _ h with ⟨_, h2, h3⟩
    exact ⟨h2, h3⟩

/-- Every pattern the parser produces is non-empty and does not start with
`#` (so removed patterns can never delete a comment line). -/
theorem parseLine_some (raw p : Str) (h : parseLine raw = some p) :
    p ≠ [] ∧ p.head? ≠ some '#' := by
  unfold parseLine at h
  split_ifs at h with h1 h2
  · cases hfb : filenameBase (strip raw) with
    | some b =>
      rw [hfb] at h
      injection h with h3
      subst h3
      obtain ⟨hb, hbc⟩ := filenameBase_some _ _ hfb
      refine ⟨hb, ?_⟩
      obtain ⟨c0, bs, rfl⟩ := List.exists_cons_of_ne_nil hb
      have hc0 : isBaseChar c0 = true :=
        (List.all_eq_true.mp hbc) c0 (List.mem_cons_self _ _)
      simp only [List.head?_cons]
      intro hcon
      have hc : c0 = '#' := by injection hcon
      subst hc
      exact absurd hc0 (by decide)
    | none =>
      rw [hfb] at h
      injection h with h3
      subst h3
      refine ⟨?_, h2⟩
      intro hcon
      exact h1 (by rw [hcon]; rfl)

theorem parsePatterns_no_comment (lines : List Str) (p : Str)
    (h : p ∈ parsePatterns lines) : p ≠ [] ∧ p.head? ≠ some '#' := by
  unfold parsePatterns at h
  obtain ⟨raw, _, hpl⟩ := List.mem_filterMap.mp h
  exact parseLine_some raw p hpl

theorem loop_removed_sub (args : Args) (O : RegexOracle) (selected : List Str)
    (stats : Str → TestStat) :
    ∀ (pats : List Str) (ls : LoopState) (p : Str),
      p ∈ (List.foldl (stepPattern args O selected stats) ls pats).removed →
      p ∈ ls.removed ∨ p ∈ pats := by
  intro pats
  induction pats with
  | nil => exact fun ls p h => Or.inl h
  | cons q qs ih =>
    intro ls p h
    rw [List.foldl_cons] at h
    rcases ih (stepPattern args O selected stats ls q) p h with h1 | h1
    · by_cases hrel : scorerRelated O selected q = []
      · rw [stepPattern_skip _ _ _ _ _ _ hrel] at h1
        exact Or.inl h1
      · rw [stepPattern_removed _ _ _ _ _ _ hrel] at h1
        split_ifs at h1 with hc
        · rcases List.mem_append.mp h1 with h2 | h2
          · exact Or.inl h2
          · right
            simp only [List.mem_cons]
            exact Or.inl (by simpa using h2)
        · exact Or.inl h1
    · exact Or.inr (List.mem_cons_of_mem q h1)

/-- Membership in the rewritten flaky file, as a proposition. -/
theorem mem_rewriteFlaky (lines removed : List Str) (l : Str) :
    l ∈ rewriteFlaky lines removed ↔
      l ∈ lines ∧ strip l ≠ [] ∧ strip l ∉ removed := by
  unfold rewriteFlaky
  rw [List.mem_filter]
  constructor
  · rintro ⟨hl, hp⟩
    rw [Bool.and_eq_true] at hp
    obtain ⟨h1, h2⟩ := hp
    rw [Bool.not_eq_true'] at h1 h2
    refine ⟨hl, List.isEmpty_eq_false.mp h1, ?_⟩
    intro hmem
    rw [show (removed.contains (strip l)) = true from List.elem_eq_true_of_mem hmem] at h2
    exact Bool.noConfusion h2
  · rintro ⟨hl, h1, h2⟩
    refine ⟨hl, ?_⟩
    rw [Bool.and_eq_true, Bool.not_eq_true', Bool.not_eq_true']
    refine ⟨List.isEmpty_eq_false.mpr h1, ?_⟩
    cases hc : removed.contains (strip l)
    · rfl
    · exact absurd (List.mem_of_elem_eq_true hc) h2

/-- Claim C6 (amended): when at least one pattern is removed, the engine
rewrites the flaky file to exactly those original lines that are non-blank
after stripping and whose stripped content is not a removed pattern, kept
verbatim and in order (a sublist of the original); blank lines are dropped
even though they match no removed pattern; comment lines are always kept. -/
theorem c6_rewrite_frame (args : Args) (O : RegexOracle) (lines : List Str)
    (discovered : List Str) (outcomes : Str → Nat → Bool)
    (parsed : Option StateMap) (o : RunOutcome)
    (h : runEngine args O (some lines) discovered outcomes parsed = .ran o)
    (hrem : o.removed ≠ []) :
    o.rewrittenFlaky = some (rewriteFlaky lines o.removed) ∧
    (∀ l ∈ lines, (l ∈ rewriteFlaky lines o.removed ↔
      strip l ≠ [] ∧ strip l ∉ o.removed)) ∧
    (∀ l ∈ lines, (strip l).head? = some '#' → l ∈ rewriteFlaky lines o.removed) ∧
    (rewriteFlaky lines o.removed).Sublist lines := by
  unfold runEngine at h
  dsimp only at h
  by_cases h1 : parsePatterns lines = []
  · rw [if_pos h1] at h
    exact RunResult.noConfusion h
  · rw [if_neg h1] at h
    by_cases h2 : selectedOf O discovered (parsePatterns lines) = []
    · rw [if_pos h2] at h
      exact RunResult.noConfusion h
    · rw [if_neg h2] at h
      injection h with h3
      subst h3
      dsimp only at hrem ⊢
      have hremoved : ∀ p ∈ (runLoop args O (selectedOf O discovered (parsePatterns lines))
          (statsOf args outcomes) (loadState parsed) (parsePatterns lines)).removed,
          p ∈ parsePatterns lines := by
        intro p hp
        rcases loop_removed_sub args O _ _ (parsePatterns lines)
          ⟨loadState parsed, [], []⟩ p hp with hin | hin
        · exact absurd hin (List.not_mem_nil p)
        · exact hin
      refine ⟨by rw [if_neg hrem], ?_, ?_, List.filter_sublist _⟩
      · intro l hl
        rw [mem_rewriteFlaky]
        constructor
        · rintro ⟨_, hh⟩
          exact hh
        · intro hh
          exact ⟨hl, hh⟩
      · intro l hl hcomment
        rw [mem_rewriteFlaky]
        refine ⟨hl, ?_, ?_⟩
        · intro hc
          rw [hc] at hcomment
          exact Option.noConfusion hcomment
        · intro hmem
          have hpat := hremoved _ hmem
          exact absurd hcomment (parsePatterns_no_comment lines _ hpat).2

/-- Witness for the amended C6 at the concrete full run. -/
theorem c6_rewrite_frame_witness :
    eOutcome.rewrittenFlaky = some (rewriteFlaky eLines eOutcome.removed) :=
  (c6_rewrite_frame wArgs wO eLines eDisc wOut none eOutcome (by decide) (by decide)).1

/-- Counterexample to C6 as stated: in the concrete run, the blank line of
the flaky file matches no removed pattern, yet it is deleted by the
rewrite — the rewritten file is `[]`, while deleting only the exact-match
lines of the removed patterns would yield `[""]`. -/
theorem c6_counterexample :
    engineRemoved (runEngine wArgs wO (some eLines) eDisc wOut none) =
      some ["stable_test".toList] ∧
    engineRewrite (runEngine wArgs wO (some eLines) eDisc wOut none) = some [] ∧
    eLines.filter (fun l => !(["stable_test".toList].contains l)) = [[]] ∧
    ([] : List Str) ≠ [[]] := by decide

/-- State entry of a pattern absent from the current flaky file. -/
def c10St : StateMap := [("old".toList, ⟨2, [1]⟩)]

/-- Witness for C10: an entry for a pattern not processed this invocation
is carried over unchanged. -/
theorem c10_state_frame_witness :
    alGet (runLoop wArgs wO wSel wStats c10St [wPat]).state "old".toList =
      alGet c10St "old".toList :=
  (c10_state_frame wArgs wO wSel wStats c10St [wPat]).2.1 "old".toList (by decide)

end Flaky
